import Mathlib

/-!
Verification of the calc expression evaluator.

The development embeds the Rust sources shallowly:
* `Token`, `scan`, `Node`, `Node.value`, `integer`, `parse` (the mutual
  `expression`/`term`/`factor` recursion, made total with a fuel argument
  that is proved sufficient), and `eval` model `src/lib.rs`.
* `PToken` and `scanP` model the positioned scanner of `src/scanner.rs`.
* `NodeG`, `Graph.stmt` and `Graph.dot` model `src/node.rs` and
  `src/graph.rs`; `runIterG` models the explicit-stack iterator of
  `src/iter.rs` (and `runIter` the one in `src/lib.rs`).
Machine `u64` arithmetic is modelled on `ℕ` with explicit `% 2 ^ 64`.
The `f64` result of evaluation is modelled in `ℚ`; the single place where
IEEE rounding is observable for the claims — the `u64 as f64` cast in
`Node::value` — is modelled exactly by `f64OfNat` (round to nearest, ties
to even, 53-bit significand).  Division by zero differs between `ℚ`
(yields 0) and IEEE doubles (yields ±inf/NaN); no claim below touches a
division whose right operand evaluates to zero.
-/

/-- Tokens of `src/lib.rs` (`enum Token`); also the `TokenKind` of
`src/scanner.rs`, which has the same variants. -/
inductive Token where
  | digit (value : ℕ)
  | plus
  | minus
  | star
  | solidus
  | leftParen
  | rightParen
  | unrecognized (ch : Char)
deriving DecidableEq

/-- `Token::is_digit` from `src/lib.rs`. -/
def Token.is_digit : Token → Bool
  | .digit _ => true
  | _ => false

/-- `Token::value` from `src/lib.rs`. -/
def Token.value : Token → ℕ
  | .digit v => v
  | _ => 0

/-- AST nodes of `src/lib.rs` (`enum Node`).  `Rc<Node>` sharing is
modelled by plain structural values. -/
inductive Node where
  | add (lhs rhs : Node)
  | subtract (lhs rhs : Node)
  | multiply (lhs rhs : Node)
  | divide (lhs rhs : Node)
  | negate (rhs : Node)
  | int (value : ℕ)
deriving DecidableEq

/-- Bit length of a natural number below `2 ^ 64`, computed with a
structural fuel so the kernel can evaluate it. -/
def bitsAux : ℕ → ℕ → ℕ
  | 0, _ => 0
  | fuel + 1, n => if n = 0 then 0 else bitsAux fuel (n / 2) + 1

/-- Bit length of a `u64` value. -/
def bits (n : ℕ) : ℕ := bitsAux 64 n

/-- The value of the Rust cast `u64 as f64`: round to nearest with a
53-bit significand, ties to even.  Exact for every `n ≤ 2 ^ 53`. -/
def f64OfNat (n : ℕ) : ℕ :=
  if n ≤ 2 ^ 53 then n
  else
    let s := bits n - 53
    let q := n / 2 ^ s
    let r := n % 2 ^ s
    let half := 2 ^ (s - 1)
    if r < half then q * 2 ^ s
    else if half < r then (q + 1) * 2 ^ s
    else (if q % 2 = 0 then q else q + 1) * 2 ^ s

/-- `Node::value` from `src/lib.rs` (also `src/parser.rs`), with the
`f64` result modelled in `ℚ` and the `u64 as f64` cast modelled by
`f64OfNat`. -/
def Node.value : Node → ℚ
  | .add lhs rhs => lhs.value + rhs.value
  | .subtract lhs rhs => lhs.value - rhs.value
  | .multiply lhs rhs => lhs.value * rhs.value
  | .divide lhs rhs => lhs.value / rhs.value
  | .negate rhs => -rhs.value
  | .int v => (f64OfNat v : ℚ)

/-- `enum ParseError` from `src/lib.rs` (the un-positioned variant used
by the parser that lives in `src/lib.rs`). -/
inductive ParseError where
  | unexpectedToken
  | invalidToken
  | invalidGroup
  | factorExpected
deriving DecidableEq

/-- `struct Partial` from `src/lib.rs`: a parsed node plus the
unconsumed remainder of the token slice. -/
structure Partial where
  node : Node
  tokens : List Token
deriving DecidableEq

/-- `Result<Partial, ParseError>`. -/
inductive ParseResult where
  | ok (p : Partial)
  | err (e : ParseError)
deriving DecidableEq

/-- `Result<f64, ParseError>`, the result type of `eval`. -/
inductive EvalResult where
  | ok (v : ℚ)
  | err (e : ParseError)
deriving DecidableEq

/-- The per-character match inside `scan` (`src/lib.rs`): digits to
`Digit`, the six operator characters to their tokens, whitespace to
nothing, anything else to `Unrecognized`. -/
def scanChar (ch : Char) : Option Token :=
  if '0' ≤ ch ∧ ch ≤ '9' then some (.digit (ch.toNat - 48))
  else if ch = '+' then some .plus
  else if ch = '-' then some .minus
  else if ch = '*' then some .star
  else if ch = '/' then some .solidus
  else if ch = '(' then some .leftParen
  else if ch = ')' then some .rightParen
  else if ch = ' ' ∨ ch = '\n' ∨ ch = '\t' then none
  else some (.unrecognized ch)

/-- `scan` from `src/lib.rs`: `filter_map` over the characters. -/
def scan (text : String) : List Token := text.data.filterMap scanChar

/-- `2 ^ 64`, the modulus of `u64` arithmetic. -/
def u64size : ℕ := 2 ^ 64

/-- `integer` from `src/lib.rs`: greedily take the leading digits,
combine them base 10 (least significant digit gets `10 ^ 0`, i.e. most
significant first), in wrapping `u64` arithmetic, and return the
`Constant` node with the rest of the slice; `none` when no digit
leads. -/
def integer (tokens : List Token) : Option Partial :=
  let digits := (tokens.takeWhile Token.is_digit).map Token.value
  let sum := digits.reverse.enum.foldl
    (fun sum p => (sum + (p.2 * (10 ^ p.1 % u64size)) % u64size) % u64size) 0
  match digits.length with
  | 0 => none
  | _ + 1 => some ⟨.int sum, tokens.drop digits.length⟩

/-- The three mutually recursive productions of the parser in
`src/lib.rs`. -/
inductive Rule where
  | expression
  | term
  | factor
deriving DecidableEq

/-- Rank of a production in the termination measure
`3 * tokens.length + rank`. -/
def rank : Rule → ℕ
  | .expression => 2
  | .term => 1
  | .factor => 0

/-- The parser of `src/lib.rs`: the bodies of `expression`, `term` and
`factor`, written as one fuel-indexed function so that the recursion is
structural (on the fuel) and hence kernel-computable.  `none` means the
fuel ran out; `parse_isSome` below proves fuel `3 * tokens.length + 3`
always suffices, and the wrappers `expression`/`term`/`factor` use that
fuel. -/
def parse : ℕ → Rule → List Token → Option ParseResult
  | 0, _, _ => none
  | fuel + 1, .expression, tokens =>
    match parse fuel .term tokens with
    | none => none
    | some (.err e) => some (.err e)
    | some (.ok t) =>
      match t.tokens with
      | [] => some (.ok t)
      | tok :: rest =>
        match tok with
        | .plus =>
          match parse fuel .expression rest with
          | none => none
          | some (.err e) => some (.err e)
          | some (.ok ex) => some (.ok ⟨.add t.node ex.node, ex.tokens⟩)
        | .minus =>
          match parse fuel .expression rest with
          | none => none
          | some (.err e) => some (.err e)
          | some (.ok ex) => some (.ok ⟨.subtract t.node ex.node, ex.tokens⟩)
        | .unrecognized _ => some (.err .invalidToken)
        | _ => some (.ok t)
  | fuel + 1, .term, tokens =>
    match parse fuel .factor tokens with
    | none => none
    | some (.err e) => some (.err e)
    | some (.ok fc) =>
      match fc.tokens with
      | [] => some (.ok fc)
      | tok :: rest =>
        match tok with
        | .star =>
          match parse fuel .term rest with
          | none => none
          | some (.err e) => some (.err e)
          | some (.ok tm) => some (.ok ⟨.multiply fc.node tm.node, tm.tokens⟩)
        | .solidus =>
          match parse fuel .term rest with
          | none => none
          | some (.err e) => some (.err e)
          | some (.ok tm) => some (.ok ⟨.divide fc.node tm.node, tm.tokens⟩)
        | .unrecognized _ => some (.err .invalidToken)
        | _ => some (.ok fc)
  | fuel + 1, .factor, tokens =>
    match integer tokens with
    | some p => some (.ok p)
    | none =>
      match tokens with
      | [] => some (.err .factorExpected)
      | tok :: rest =>
        match tok with
        | .minus =>
          match parse fuel .factor rest with
          | none => none
          | some (.err e) => some (.err e)
          | some (.ok fc) => some (.ok ⟨.negate fc.node, fc.tokens⟩)
        | .leftParen =>
          match parse fuel .expression rest with
          | none => none
          | some (.err e) => some (.err e)
          | some (.ok ex) =>
            match ex.tokens with
            | [] => some (.err .invalidGroup)
            | tok2 :: rest2 =>
              match tok2 with
              | .rightParen => some (.ok ⟨ex.node, rest2⟩)
              | _ => some (.err .invalidGroup)
        | _ => some (.err .factorExpected)

/-- `integer` only ever drops leading tokens: its remainder is a suffix
of its input. -/
theorem integer_suffix (ts : List Token) (p : Partial) (h : integer ts = some p) :
    p.tokens <:+ ts := by
  simp only [integer] at h
  split at h
  · exact absurd h (by simp)
  · simp only [Option.some.injEq] at h
    subst h
    exact List.drop_suffix _ _

/-- The remainder returned by any successful run of the parser is a
suffix of the input token slice. -/
theorem parse_suffix : ∀ (fuel : ℕ) (r : Rule) (ts : List Token) (p : Partial),
    parse fuel r ts = some (.ok p) → p.tokens <:+ ts := by
  intro fuel
  induction fuel with
  | zero => intro r ts p h; simp [parse] at h
  | succ f ih =>
    intro r ts p h
    cases r with
    | expression =>
      simp only [parse] at h
      cases h1 : parse f Rule.term ts with
      | none => rw [h1] at h; simp at h
      | some res =>
        rw [h1] at h
        cases res with
        | err e => simp at h
        | ok t =>
          simp only [] at h
          have st := ih Rule.term ts t h1
          cases h2 : t.tokens with
          | nil =>
            rw [h2] at h
            simp only [Option.some.injEq, ParseResult.ok.injEq] at h
            subst h
            exact st
          | cons tok rest =>
            rw [h2] at h
            simp only [] at h
            have hcons : tok :: rest <:+ ts := h2 ▸ st
            have hrest : rest <:+ ts := (List.suffix_cons tok rest).trans hcons
            cases tok
            case plus =>
              simp only [] at h
              cases h3 : parse f Rule.expression rest with
              | none => rw [h3] at h; simp at h
              | some res2 =>
                rw [h3] at h
                cases res2 with
                | err e => simp at h
                | ok ex =>
                  simp only [Option.some.injEq, ParseResult.ok.injEq] at h
                  subst h
                  exact (ih Rule.expression rest ex h3).trans hrest
            case minus =>
              simp only [] at h
              cases h3 : parse f Rule.expression rest with
              | none => rw [h3] at h; simp at h
              | some res2 =>
                rw [h3] at h
                cases res2 with
                | err e => simp at h
                | ok ex =>
                  simp only [Option.some.injEq, ParseResult.ok.injEq] at h
                  subst h
                  exact (ih Rule.expression rest ex h3).trans hrest
            case unrecognized ch => simp at h
            all_goals
              simp only [Option.some.injEq, ParseResult.ok.injEq] at h
            all_goals (subst h; exact st)
    | term =>
      simp only [parse] at h
      cases h1 : parse f Rule.factor ts with
      | none => rw [h1] at h; simp at h
      | some res =>
        rw [h1] at h
        cases res with
        | err e => simp at h
        | ok fc =>
          simp only [] at h
          have st := ih Rule.factor ts fc h1
          cases h2 : fc.tokens with
          | nil =>
            rw [h2] at h
            simp only [Option.some.injEq, ParseResult.ok.injEq] at h
            subst h
            exact st
          | cons tok rest =>
            rw [h2] at h
            simp only [] at h
            have hcons : tok :: rest <:+ ts := h2 ▸ st
            have hrest : rest <:+ ts := (List.suffix_cons tok rest).trans hcons
            cases tok
            case star =>
              simp only [] at h
              cases h3 : parse f Rule.term rest with
              | none => rw [h3] at h; simp at h
              | some res2 =>
                rw [h3] at h
                cases res2 with
                | err e => simp at h
                | ok tm =>
                  simp only [Option.some.injEq, ParseResult.ok.injEq] at h
                  subst h
                  exact (ih Rule.term rest tm h3).trans hrest
            case solidus =>
              simp only [] at h
              cases h3 : parse f Rule.term rest with
              | none => rw [h3] at h; simp at h
              | some res2 =>
                rw [h3] at h
                cases res2 with
                | err e => simp at h
                | ok tm =>
                  simp only [Option.some.injEq, ParseResult.ok.injEq] at h
                  subst h
                  exact (ih Rule.term rest tm h3).trans hrest
            case unrecognized ch => simp at h
            all_goals
              simp only [Option.some.injEq, ParseResult.ok.injEq] at h
            all_goals (subst h; exact st)
    | factor =>
      simp only [parse] at h
      cases h0 : integer ts with
      | some p0 =>
        rw [h0] at h
        simp only [Option.some.injEq, ParseResult.ok.injEq] at h
        subst h
        exact integer_suffix ts p0 h0
      | none =>
        rw [h0] at h
        simp only [] at h
        cases ts with
        | nil => simp at h
        | cons tok rest =>
          simp only [] at h
          have hrest : rest <:+ tok :: rest := List.suffix_cons tok rest
          cases tok
          case minus =>
            simp only [] at h
            cases h3 : parse f Rule.factor rest with
            | none => rw [h3] at h; simp at h
            | some res2 =>
              rw [h3] at h
              cases res2 with
              | err e => simp at h
              | ok fc =>
                simp only [Option.some.injEq, ParseResult.ok.injEq] at h
                subst h
                exact (ih Rule.factor rest fc h3).trans hrest
          case leftParen =>
            simp only [] at h
            cases h3 : parse f Rule.expression rest with
            | none => rw [h3] at h; simp at h
            | some res2 =>
              rw [h3] at h
              cases res2 with
              | err e => simp at h
              | ok ex =>
                simp only [] at h
                have sx := ih Rule.expression rest ex h3
                cases h4 : ex.tokens with
                | nil => rw [h4] at h; simp at h
                | cons tok2 rest2 =>
                  rw [h4] at h
                  simp only [] at h
                  have hr2 : rest2 <:+ rest :=
                    (List.suffix_cons tok2 rest2).trans (h4 ▸ sx)
                  cases tok2
                  case rightParen =>
                    simp only [Option.some.injEq, ParseResult.ok.injEq] at h
                    subst h
                    exact hr2.trans hrest
                  all_goals simp at h
          all_goals simp at h

/-- Fuel `3 * tokens.length + rank rule` is strictly sufficient: with
any larger fuel the parser never runs out.  This is the termination
argument for the source's mutual recursion: every self-recursive call
consumes at least one token first, and the production rank drops along
`expression → term → factor`. -/
theorem parse_isSome : ∀ (fuel : ℕ) (r : Rule) (ts : List Token),
    3 * ts.length + rank r < fuel → (parse fuel r ts).isSome = true := by
  intro fuel
  induction fuel with
  | zero => intro r ts hb; exact absurd hb (by omega)
  | succ f ih =>
    intro r ts hb
    cases r with
    | expression =>
      have hb' : 3 * ts.length + 2 < f + 1 := hb
      simp only [parse]
      have hbt : 3 * ts.length + 1 < f := by omega
      cases h1 : parse f Rule.term ts with
      | none =>
        have hs := ih Rule.term ts hbt
        rw [h1] at hs
        simp at hs
      | some res =>
        cases res with
        | err e => simp
        | ok t =>
          simp only []
          cases h2 : t.tokens with
          | nil => simp
          | cons tok rest =>
            have hlen : rest.length + 1 ≤ ts.length := by
              have := (h2 ▸ parse_suffix f Rule.term ts t h1).length_le
              simpa using this
            cases tok
            case plus =>
              simp only []
              have hbe : 3 * rest.length + 2 < f := by omega
              cases h3 : parse f Rule.expression rest with
              | none =>
                have hs := ih Rule.expression rest hbe
                rw [h3] at hs
                simp at hs
              | some res2 => cases res2 <;> simp
            case minus =>
              simp only []
              have hbe : 3 * rest.length + 2 < f := by omega
              cases h3 : parse f Rule.expression rest with
              | none =>
                have hs := ih Rule.expression rest hbe
                rw [h3] at hs
                simp at hs
              | some res2 => cases res2 <;> simp
            all_goals simp
    | term =>
      have hb' : 3 * ts.length + 1 < f + 1 := hb
      simp only [parse]
      have hbt : 3 * ts.length + 0 < f := by omega
      cases h1 : parse f Rule.factor ts with
      | none =>
        have hs := ih Rule.factor ts hbt
        rw [h1] at hs
        simp at hs
      | some res =>
        cases res with
        | err e => simp
        | ok fc =>
          simp only []
          cases h2 : fc.tokens with
          | nil => simp
          | cons tok rest =>
            have hlen : rest.length + 1 ≤ ts.length := by
              have := (h2 ▸ parse_suffix f Rule.factor ts fc h1).length_le
              simpa using this
            cases tok
            case star =>
              simp only []
              have hbe : 3 * rest.length + 1 < f := by omega
              cases h3 : parse f Rule.term rest with
              | none =>
                have hs := ih Rule.term rest hbe
                rw [h3] at hs
                simp at hs
              | some res2 => cases res2 <;> simp
            case solidus =>
              simp only []
              have hbe : 3 * rest.length + 1 < f := by omega
              cases h3 : parse f Rule.term rest with
              | none =>
                have hs := ih Rule.term rest hbe
                rw [h3] at hs
                simp at hs
              | some res2 => cases res2 <;> simp
            all_goals simp
    | factor =>
      have hb' : 3 * ts.length + 0 < f + 1 := hb
      simp only [parse]
      cases h0 : integer ts with
      | some p0 => simp
      | none =>
        simp only []
        cases ts with
        | nil => simp
        | cons tok rest =>
          have hlen : rest.length + 1 = (tok :: rest).length := rfl
          cases tok
          case minus =>
            simp only []
            have hbe : 3 * rest.length + 0 < f := by
              simp only [List.length_cons] at hb'
              omega
            cases h3 : parse f Rule.factor rest with
            | none =>
              have hs := ih Rule.factor rest hbe
              rw [h3] at hs
              simp at hs
            | some res2 => cases res2 <;> simp
          case leftParen =>
            simp only []
            have hbe : 3 * rest.length + 2 < f := by
              simp only [List.length_cons] at hb'
              omega
            cases h3 : parse f Rule.expression rest with
            | none =>
              have hs := ih Rule.expression rest hbe
              rw [h3] at hs
              simp at hs
            | some res2 =>
              cases res2 with
              | err e => simp
              | ok ex =>
                simp only []
                cases h4 : ex.tokens with
                | nil => simp
                | cons tok2 rest2 => cases tok2 <;> simp
          all_goals simp

/-- One-step unfolding of the `factor` branch of `parse`, for a token
list that is not yet broken into cases. -/
theorem parse_factor_def (f : ℕ) (ts : List Token) :
    parse (f + 1) Rule.factor ts =
      match integer ts with
      | some p => some (.ok p)
      | none =>
        match ts with
        | [] => some (.err .factorExpected)
        | tok :: rest =>
          match tok with
          | .minus =>
            match parse f Rule.factor rest with
            | none => none
            | some (.err e) => some (.err e)
            | some (.ok fc) => some (.ok ⟨.negate fc.node, fc.tokens⟩)
          | .leftParen =>
            match parse f Rule.expression rest with
            | none => none
            | some (.err e) => some (.err e)
            | some (.ok ex) =>
              match ex.tokens with
              | [] => some (.err .invalidGroup)
              | tok2 :: rest2 =>
                match tok2 with
                | .rightParen => some (.ok ⟨ex.node, rest2⟩)
                | _ => some (.err .invalidGroup)
          | _ => some (.err .factorExpected) := rfl

/-- Once the parser answers with some fuel, more fuel gives the same
answer. -/
theorem parse_mono : ∀ (fuel : ℕ) (r : Rule) (ts : List Token) (x : ParseResult),
    parse fuel r ts = some x → parse (fuel + 1) r ts = some x := by
  intro fuel
  induction fuel with
  | zero => intro r ts x h; simp [parse] at h
  | succ f ih =>
    intro r ts x h
    cases r with
    | expression =>
      rw [parse.eq_2] at h ⊢
      cases h1 : parse f Rule.term ts with
      | none => rw [h1] at h; simp at h
      | some res =>
        rw [h1] at h
        rw [ih Rule.term ts res h1]
        cases res with
        | err e => exact h
        | ok t =>
          simp only [] at h ⊢
          cases h2 : t.tokens with
          | nil => rw [h2] at h; exact h
          | cons tok rest =>
            rw [h2] at h
            simp only [] at h ⊢
            cases tok
            case plus =>
              simp only [] at h ⊢
              cases h3 : parse f Rule.expression rest with
              | none => rw [h3] at h; simp at h
              | some res2 =>
                rw [h3] at h
                rw [ih Rule.expression rest res2 h3]
                exact h
            case minus =>
              simp only [] at h ⊢
              cases h3 : parse f Rule.expression rest with
              | none => rw [h3] at h; simp at h
              | some res2 =>
                rw [h3] at h
                rw [ih Rule.expression rest res2 h3]
                exact h
            all_goals exact h
    | term =>
      rw [parse.eq_3] at h ⊢
      cases h1 : parse f Rule.factor ts with
      | none => rw [h1] at h; simp at h
      | some res =>
        rw [h1] at h
        rw [ih Rule.factor ts res h1]
        cases res with
        | err e => exact h
        | ok fc =>
          simp only [] at h ⊢
          cases h2 : fc.tokens with
          | nil => rw [h2] at h; exact h
          | cons tok rest =>
            rw [h2] at h
            simp only [] at h ⊢
            cases tok
            case star =>
              simp only [] at h ⊢
              cases h3 : parse f Rule.term rest with
              | none => rw [h3] at h; simp at h
              | some res2 =>
                rw [h3] at h
                rw [ih Rule.term rest res2 h3]
                exact h
            case solidus =>
              simp only [] at h ⊢
              cases h3 : parse f Rule.term rest with
              | none => rw [h3] at h; simp at h
              | some res2 =>
                rw [h3] at h
                rw [ih Rule.term rest res2 h3]
                exact h
            all_goals exact h
    | factor =>
      rw [parse_factor_def] at h ⊢
      cases h0 : integer ts with
      | some p0 =>
        rw [h0] at h
        simp only [] at h ⊢
        exact h
      | none =>
        rw [h0] at h
        simp only [] at h ⊢
        cases ts with
        | nil => simp only [] at h ⊢; exact h
        | cons tok rest =>
          simp only [] at h ⊢
          cases tok
          case minus =>
            simp only [] at h ⊢
            cases h3 : parse f Rule.factor rest with
            | none => rw [h3] at h; simp at h
            | some res2 =>
              rw [h3] at h
              rw [ih Rule.factor rest res2 h3]
              exact h
          case leftParen =>
            simp only [] at h ⊢
            cases h3 : parse f Rule.expression rest with
            | none => rw [h3] at h; simp at h
            | some res2 =>
              rw [h3] at h
              rw [ih Rule.expression rest res2 h3]
              exact h
          all_goals (simp only [] at h ⊢; exact h)

/-- `parse_mono`, iterated to any larger fuel. -/
theorem parse_mono_le (f1 f2 : ℕ) (r : Rule) (ts : List Token) (x : ParseResult)
    (hle : f1 ≤ f2) (h : parse f1 r ts = some x) : parse f2 r ts = some x := by
  induction f2, hle using Nat.le_induction with
  | base => exact h
  | succ n hn ihn => exact parse_mono n r ts x ihn

/-- Any two sufficient fuels give the same parse result. -/
theorem parse_fuel_eq (f1 f2 : ℕ) (r : Rule) (ts : List Token)
    (h1 : 3 * ts.length + rank r < f1) (h2 : 3 * ts.length + rank r < f2) :
    parse f1 r ts = parse f2 r ts := by
  rcases Nat.le_total f1 f2 with hle | hle
  · obtain ⟨x, hx⟩ := Option.isSome_iff_exists.mp (parse_isSome f1 r ts h1)
    rw [hx, parse_mono_le f1 f2 r ts x hle hx]
  · obtain ⟨y, hy⟩ := Option.isSome_iff_exists.mp (parse_isSome f2 r ts h2)
    rw [hy, parse_mono_le f2 f1 r ts y hle hy]

/-- The canonical fuel used by the wrappers. -/
def fuelFor (ts : List Token) : ℕ := 3 * ts.length + 3

theorem rank_lt_fuelFor (r : Rule) (ts : List Token) :
    3 * ts.length + rank r < fuelFor ts := by
  cases r
  · show 3 * ts.length + 2 < 3 * ts.length + 3
    omega
  · show 3 * ts.length + 1 < 3 * ts.length + 3
    omega
  · show 3 * ts.length + 0 < 3 * ts.length + 3
    omega

/-- `expression` from `src/lib.rs`: the parser run on the `expression`
production with sufficient fuel. -/
def expression (ts : List Token) : ParseResult :=
  (parse (fuelFor ts) Rule.expression ts).get
    (parse_isSome (fuelFor ts) Rule.expression ts (rank_lt_fuelFor Rule.expression ts))

/-- `term` from `src/lib.rs`. -/
def term (ts : List Token) : ParseResult :=
  (parse (fuelFor ts) Rule.term ts).get
    (parse_isSome (fuelFor ts) Rule.term ts (rank_lt_fuelFor Rule.term ts))

/-- `factor` from `src/lib.rs`. -/
def factor (ts : List Token) : ParseResult :=
  (parse (fuelFor ts) Rule.factor ts).get
    (parse_isSome (fuelFor ts) Rule.factor ts (rank_lt_fuelFor Rule.factor ts))

theorem parse_expression_eq (f : ℕ) (ts : List Token) (h : 3 * ts.length + 2 < f) :
    parse f Rule.expression ts = some (expression ts) := by
  rw [parse_fuel_eq f (fuelFor ts) Rule.expression ts h
    (rank_lt_fuelFor Rule.expression ts)]
  exact (Option.some_get _).symm

theorem parse_term_eq (f : ℕ) (ts : List Token) (h : 3 * ts.length + 1 < f) :
    parse f Rule.term ts = some (term ts) := by
  rw [parse_fuel_eq f (fuelFor ts) Rule.term ts h (rank_lt_fuelFor Rule.term ts)]
  exact (Option.some_get _).symm

theorem parse_factor_eq (f : ℕ) (ts : List Token) (h : 3 * ts.length < f) :
    parse f Rule.factor ts = some (factor ts) := by
  rw [parse_fuel_eq f (fuelFor ts) Rule.factor ts h (rank_lt_fuelFor Rule.factor ts)]
  exact (Option.some_get _).symm

/-- The remainder of a successful `expression` is a suffix of the
input. -/
theorem expression_suffix (ts : List Token) (p : Partial)
    (h : expression ts = .ok p) : p.tokens <:+ ts :=
  parse_suffix (fuelFor ts) Rule.expression ts p
    (by rw [parse_expression_eq (fuelFor ts) ts (by show _ < 3 * ts.length + 3; omega), h])

/-- The remainder of a successful `term` is a suffix of the input. -/
theorem term_suffix (ts : List Token) (p : Partial)
    (h : term ts = .ok p) : p.tokens <:+ ts :=
  parse_suffix (fuelFor ts) Rule.term ts p
    (by rw [parse_term_eq (fuelFor ts) ts (by show _ < 3 * ts.length + 3; omega), h])

/-- The remainder of a successful `factor` is a suffix of the input. -/
theorem factor_suffix (ts : List Token) (p : Partial)
    (h : factor ts = .ok p) : p.tokens <:+ ts :=
  parse_suffix (fuelFor ts) Rule.factor ts p
    (by rw [parse_factor_eq (fuelFor ts) ts (by show _ < 3 * ts.length + 3; omega), h])

/-- The body of `expression` from `src/lib.rs`, at the wrapper level:
parse a `term`; if a `+`/`-` follows, recurse into `expression` for the
right operand; an `Unrecognized` token after the term is an error; any
other token ends the expression. -/
theorem expression_eq (ts : List Token) :
    expression ts =
      match term ts with
      | .err e => .err e
      | .ok t =>
        match t.tokens with
        | [] => .ok t
        | tok :: rest =>
          match tok with
          | .plus =>
            match expression rest with
            | .err e => .err e
            | .ok ex => .ok ⟨.add t.node ex.node, ex.tokens⟩
          | .minus =>
            match expression rest with
            | .err e => .err e
            | .ok ex => .ok ⟨.subtract t.node ex.node, ex.tokens⟩
          | .unrecognized _ => .err .invalidToken
          | _ => .ok t := by
  have hx : parse (fuelFor ts) Rule.expression ts = some (expression ts) :=
    parse_expression_eq (fuelFor ts) ts (by show _ < 3 * ts.length + 3; omega)
  rw [show fuelFor ts = 3 * ts.length + 2 + 1 from rfl, parse.eq_2] at hx
  rw [parse_term_eq (3 * ts.length + 2) ts (by omega)] at hx
  cases ht : term ts with
  | err e =>
    rw [ht] at hx
    simp only [Option.some.injEq] at hx
    simp only []
    exact hx.symm
  | ok t =>
    rw [ht] at hx
    simp only [] at hx ⊢
    cases h2 : t.tokens with
    | nil =>
      rw [h2] at hx
      simp only [Option.some.injEq] at hx
      simp only []
      exact hx.symm
    | cons tok rest =>
      rw [h2] at hx
      simp only [] at hx ⊢
      have hlen : rest.length + 1 ≤ ts.length := by
        have := (h2 ▸ (term_suffix ts t ht)).length_le
        simpa using this
      cases tok
      case plus =>
        simp only [] at hx ⊢
        rw [parse_expression_eq (3 * ts.length + 2) rest (by omega)] at hx
        cases hex : expression rest with
        | err e =>
          rw [hex] at hx
          simp only [Option.some.injEq] at hx
          simp only []
          exact hx.symm
        | ok ex =>
          rw [hex] at hx
          simp only [Option.some.injEq] at hx
          simp only []
          exact hx.symm
      case minus =>
        simp only [] at hx ⊢
        rw [parse_expression_eq (3 * ts.length + 2) rest (by omega)] at hx
        cases hex : expression rest with
        | err e =>
          rw [hex] at hx
          simp only [Option.some.injEq] at hx
          simp only []
          exact hx.symm
        | ok ex =>
          rw [hex] at hx
          simp only [Option.some.injEq] at hx
          simp only []
          exact hx.symm
      all_goals
        simp only [Option.some.injEq] at hx
      all_goals exact hx.symm

/-- The body of `term` from `src/lib.rs`, at the wrapper level. -/
theorem term_eq (ts : List Token) :
    term ts =
      match factor ts with
      | .err e => .err e
      | .ok fc =>
        match fc.tokens with
        | [] => .ok fc
        | tok :: rest =>
          match tok with
          | .star =>
            match term rest with
            | .err e => .err e
            | .ok tm => .ok ⟨.multiply fc.node tm.node, tm.tokens⟩
          | .solidus =>
            match term rest with
            | .err e => .err e
            | .ok tm => .ok ⟨.divide fc.node tm.node, tm.tokens⟩
          | .unrecognized _ => .err .invalidToken
          | _ => .ok fc := by
  have hx : parse (fuelFor ts) Rule.term ts = some (term ts) :=
    parse_term_eq (fuelFor ts) ts (by show _ < 3 * ts.length + 3; omega)
  rw [show fuelFor ts = 3 * ts.length + 2 + 1 from rfl, parse.eq_3] at hx
  rw [parse_factor_eq (3 * ts.length + 2) ts (by omega)] at hx
  cases ht : factor ts with
  | err e =>
    rw [ht] at hx
    simp only [Option.some.injEq] at hx
    simp only []
    exact hx.symm
  | ok fc =>
    rw [ht] at hx
    simp only [] at hx ⊢
    cases h2 : fc.tokens with
    | nil =>
      rw [h2] at hx
      simp only [Option.some.injEq] at hx
      simp only []
      exact hx.symm
    | cons tok rest =>
      rw [h2] at hx
      simp only [] at hx ⊢
      have hlen : rest.length + 1 ≤ ts.length := by
        have := (h2 ▸ (factor_suffix ts fc ht)).length_le
        simpa using this
      cases tok
      case star =>
        simp only [] at hx ⊢
        rw [parse_term_eq (3 * ts.length + 2) rest (by omega)] at hx
        cases hex : term rest with
        | err e =>
          rw [hex] at hx
          simp only [Option.some.injEq] at hx
          simp only []
          exact hx.symm
        | ok tm =>
          rw [hex] at hx
          simp only [Option.some.injEq] at hx
          simp only []
          exact hx.symm
      case solidus =>
        simp only [] at hx ⊢
        rw [parse_term_eq (3 * ts.length + 2) rest (by omega)] at hx
        cases hex : term rest with
        | err e =>
          rw [hex] at hx
          simp only [Option.some.injEq] at hx
          simp only []
          exact hx.symm
        | ok tm =>
          rw [hex] at hx
          simp only [Option.some.injEq] at hx
          simp only []
          exact hx.symm
      all_goals
        simp only [Option.some.injEq] at hx
      all_goals exact hx.symm

/-- The body of `factor` from `src/lib.rs`, at the wrapper level: an
integer if one leads; else unary minus recursing into `factor`, or a
parenthesised group recursing into `expression` and requiring `)`;
anything else (including end of input) is `FactorExpected`. -/
theorem factor_eq (ts : List Token) :
    factor ts =
      match integer ts with
      | some p => .ok p
      | none =>
        match ts with
        | [] => .err .factorExpected
        | tok :: rest =>
          match tok with
          | .minus =>
            match factor rest with
            | .err e => .err e
            | .ok fc => .ok ⟨.negate fc.node, fc.tokens⟩
          | .leftParen =>
            match expression rest with
            | .err e => .err e
            | .ok ex =>
              match ex.tokens with
              | [] => .err .invalidGroup
              | tok2 :: rest2 =>
                match tok2 with
                | .rightParen => .ok ⟨ex.node, rest2⟩
                | _ => .err .invalidGroup
          | _ => .err .factorExpected := by
  have hx : parse (fuelFor ts) Rule.factor ts = some (factor ts) :=
    parse_factor_eq (fuelFor ts) ts (by show _ < 3 * ts.length + 3; omega)
  rw [show fuelFor ts = 3 * ts.length + 2 + 1 from rfl, parse_factor_def] at hx
  cases h0 : integer ts with
  | some p =>
    rw [h0] at hx
    simp only [Option.some.injEq] at hx
    simp only []
    exact hx.symm
  | none =>
    rw [h0] at hx
    simp only [] at hx ⊢
    cases ts with
    | nil =>
      simp only [Option.some.injEq] at hx
      exact hx.symm
    | cons tok rest =>
      simp only [List.length_cons] at hx
      simp only [] at hx ⊢
      cases tok
      case minus =>
        simp only [] at hx ⊢
        rw [parse_factor_eq (3 * (rest.length + 1) + 2) rest (by omega)] at hx
        cases hf : factor rest with
        | err e =>
          rw [hf] at hx
          simp only [Option.some.injEq] at hx
          simp only []
          exact hx.symm
        | ok fc =>
          rw [hf] at hx
          simp only [Option.some.injEq] at hx
          simp only []
          exact hx.symm
      case leftParen =>
        simp only [] at hx ⊢
        rw [parse_expression_eq (3 * (rest.length + 1) + 2) rest (by omega)] at hx
        cases hex : expression rest with
        | err e =>
          rw [hex] at hx
          simp only [Option.some.injEq] at hx
          simp only []
          exact hx.symm
        | ok ex =>
          rw [hex] at hx
          simp only [] at hx ⊢
          cases h4 : ex.tokens with
          | nil =>
            rw [h4] at hx
            simp only [Option.some.injEq] at hx
            simp only []
            exact hx.symm
          | cons tok2 rest2 =>
            rw [h4] at hx
            simp only [] at hx ⊢
            cases tok2
            case rightParen =>
              simp only [Option.some.injEq] at hx
              exact hx.symm
            all_goals
              simp only [Option.some.injEq] at hx
            all_goals exact hx.symm
      all_goals
        simp only [Option.some.injEq] at hx
      all_goals exact hx.symm

/-- `eval` from `src/lib.rs`: scan, parse an `expression`, demand an
empty remainder, and return the root's value; a non-empty remainder is
`UnexpectedToken`. -/
def eval (text : String) : EvalResult :=
  let tokens := scan text
  match expression tokens with
  | .err e => .err e
  | .ok expr =>
    match expr.tokens.length with
    | 0 => .ok expr.node.value
    | _ + 1 => .err .unexpectedToken

/-- The children of a node, in left-to-right order; `Node::children`
from `src/node.rs`, and also the order in which `Iter::next` from
`src/lib.rs` pushes them (right child first, so the left child is on
top of the stack). -/
def Node.children : Node → List Node
  | .add lhs rhs => [lhs, rhs]
  | .subtract lhs rhs => [lhs, rhs]
  | .multiply lhs rhs => [lhs, rhs]
  | .divide lhs rhs => [lhs, rhs]
  | .negate rhs => [rhs]
  | .int _ => []

/-- Number of nodes in a tree. -/
def Node.size : Node → ℕ
  | .add lhs rhs => lhs.size + rhs.size + 1
  | .subtract lhs rhs => lhs.size + rhs.size + 1
  | .multiply lhs rhs => lhs.size + rhs.size + 1
  | .divide lhs rhs => lhs.size + rhs.size + 1
  | .negate rhs => rhs.size + 1
  | .int _ => 1

/-- Number of operator nodes (`Add`, `Subtract`, `Multiply`, `Divide`,
`Negate`) in a tree. -/
def opCount : Node → ℕ
  | .add lhs rhs => opCount lhs + opCount rhs + 1
  | .subtract lhs rhs => opCount lhs + opCount rhs + 1
  | .multiply lhs rhs => opCount lhs + opCount rhs + 1
  | .divide lhs rhs => opCount lhs + opCount rhs + 1
  | .negate rhs => opCount rhs + 1
  | .int _ => 0

/-- Number of binary operator nodes in a tree. -/
def binOpCount : Node → ℕ
  | .add lhs rhs => binOpCount lhs + binOpCount rhs + 1
  | .subtract lhs rhs => binOpCount lhs + binOpCount rhs + 1
  | .multiply lhs rhs => binOpCount lhs + binOpCount rhs + 1
  | .divide lhs rhs => binOpCount lhs + binOpCount rhs + 1
  | .negate rhs => binOpCount rhs
  | .int _ => 0

/-- Number of `Int` (constant) nodes in a tree. -/
def constCount : Node → ℕ
  | .add lhs rhs => constCount lhs + constCount rhs
  | .subtract lhs rhs => constCount lhs + constCount rhs
  | .multiply lhs rhs => constCount lhs + constCount rhs
  | .divide lhs rhs => constCount lhs + constCount rhs
  | .negate rhs => constCount rhs
  | .int _ => 1

/-- Total size of a stack of nodes. -/
def stackSize (stack : List Node) : ℕ := (stack.map Node.size).sum

/-- The `Iter` of `src/lib.rs`, run to completion from a stack whose
head is the top: `next` pops a node, pushes its right then left child
(so the left child is popped first), and yields the popped node.  The
fuel argument makes the recursion structural; `stackSize` fuel is
exactly enough. -/
def runIterFuel : ℕ → List Node → List Node
  | 0, _ => []
  | _ + 1, [] => []
  | fuel + 1, n :: rest => n :: runIterFuel fuel (n.children ++ rest)

/-- The iterator of `src/lib.rs` run on an initial stack. -/
def runIter (stack : List Node) : List Node := runIterFuel (stackSize stack) stack

/-- Pre-order depth-first listing of a tree's nodes. -/
def preorder : Node → List Node
  | .add lhs rhs => .add lhs rhs :: (preorder lhs ++ preorder rhs)
  | .subtract lhs rhs => .subtract lhs rhs :: (preorder lhs ++ preorder rhs)
  | .multiply lhs rhs => .multiply lhs rhs :: (preorder lhs ++ preorder rhs)
  | .divide lhs rhs => .divide lhs rhs :: (preorder lhs ++ preorder rhs)
  | .negate rhs => .negate rhs :: preorder rhs
  | .int v => [.int v]

theorem node_size_pos (n : Node) : 1 ≤ n.size := by
  cases n <;> simp [Node.size]

/-- With sufficient fuel, the explicit-stack iterator yields the
concatenated pre-orders of the stacked trees. -/
theorem runIterFuel_eq : ∀ (fuel : ℕ) (stack : List Node),
    stackSize stack ≤ fuel →
    runIterFuel fuel stack = (stack.map preorder).flatten := by
  intro fuel
  induction fuel with
  | zero =>
    intro stack hb
    cases stack with
    | nil => simp [runIterFuel]
    | cons n rest =>
      exfalso
      have := node_size_pos n
      simp [stackSize] at hb
      omega
  | succ f ih =>
    intro stack hb
    cases stack with
    | nil => simp [runIterFuel]
    | cons n rest =>
      simp only [runIterFuel]
      have hsz : stackSize (n.children ++ rest) + 1 = stackSize (n :: rest) := by
        cases n <;>
          simp [stackSize, Node.children, Node.size, List.map_append] <;> try omega
      have hb' : stackSize (n.children ++ rest) ≤ f := by
        simp only [stackSize] at hb hsz ⊢
        omega
      rw [ih (n.children ++ rest) hb']
      cases n <;>
        simp [Node.children, preorder, List.map_append, List.append_assoc]

/-- Running the iterator from a single root yields the pre-order
traversal. -/
theorem runIter_eq_preorder (t : Node) : runIter [t] = preorder t := by
  have h := runIterFuel_eq (stackSize [t]) [t] le_rfl
  simpa [runIter] using h

/-- The pre-order traversal visits every node exactly once: its length
is the number of operator nodes plus the number of constants. -/
theorem preorder_length (t : Node) :
    (preorder t).length = opCount t + constCount t := by
  induction t <;> simp [preorder, opCount, constCount, *] <;> omega

/-- A tree always has one more constant than binary operators. -/
theorem constCount_eq (t : Node) : constCount t = binOpCount t + 1 := by
  induction t <;> simp [constCount, binOpCount, *] <;> omega

theorem preorder_head (t : Node) : (preorder t).head? = some t := by
  cases t <;> simp [preorder]

/-- Value of a digit list, least significant digit first. -/
def polyVal : List ℕ → ℕ
  | [] => 0
  | d :: l => d + 10 * polyVal l

/-- Value of a digit list, most significant digit first: the repeated
`×10 + digit` accumulation named by the spec. -/
def hornerVal (ds : List ℕ) : ℕ := ds.foldl (fun a d => 10 * a + d) 0

theorem polyVal_append (l : List ℕ) (d : ℕ) :
    polyVal (l ++ [d]) = polyVal l + d * 10 ^ l.length := by
  induction l with
  | nil => simp [polyVal]
  | cons x t ih => simp [polyVal, ih, pow_succ]; ring

theorem hornerVal_acc (l : List ℕ) : ∀ a : ℕ,
    l.foldl (fun a d => 10 * a + d) a = a * 10 ^ l.length + polyVal l.reverse := by
  induction l with
  | nil => intro a; simp [polyVal]
  | cons d t ih =>
    intro a
    simp only [List.foldl_cons, List.reverse_cons, ih, polyVal_append]
    simp [pow_succ]
    ring

theorem hornerVal_eq (l : List ℕ) : hornerVal l = polyVal l.reverse := by
  have h := hornerVal_acc l 0
  simpa [hornerVal] using h

theorem u64size_pos : 0 < u64size := by
  simp [u64size]

/-- The wrapping `u64` fold of `integer`, over an enumeration starting
at index `k`, computes the base-10 value modulo `2 ^ 64`. -/
theorem wrapFold_enumFrom : ∀ (l : List ℕ) (k acc : ℕ), acc < u64size →
    (List.enumFrom k l).foldl
      (fun sum p => (sum + (p.2 * (10 ^ p.1 % u64size)) % u64size) % u64size) acc
      = (acc + 10 ^ k * polyVal l) % u64size := by
  intro l
  induction l with
  | nil =>
    intro k acc hacc
    simp [polyVal, Nat.mod_eq_of_lt hacc]
  | cons d t ih =>
    intro k acc hacc
    simp only [List.enumFrom, List.foldl_cons]
    rw [ih (k + 1) _ (Nat.mod_lt _ u64size_pos)]
    have hcongr :
        ((acc + (d * (10 ^ k % u64size)) % u64size) % u64size
            + 10 ^ (k + 1) * polyVal t)
          ≡ acc + 10 ^ k * polyVal (d :: t) [MOD u64size] := by
      have h1 : (d * (10 ^ k % u64size)) % u64size ≡ d * 10 ^ k [MOD u64size] :=
        (Nat.mod_modEq _ _).trans (Nat.ModEq.mul_left d (Nat.mod_modEq _ _))
      have h2 : (acc + (d * (10 ^ k % u64size)) % u64size) % u64size
          ≡ acc + d * 10 ^ k [MOD u64size] :=
        (Nat.mod_modEq _ _).trans (Nat.ModEq.add_left acc h1)
      have h3 := Nat.ModEq.add_right (10 ^ (k + 1) * polyVal t) h2
      have harith : acc + d * 10 ^ k + 10 ^ (k + 1) * polyVal t
          = acc + 10 ^ k * polyVal (d :: t) := by
        simp [polyVal, pow_succ]
        ring
      exact harith ▸ h3
    exact hcongr

/-- `integer`, characterised: it consumes the maximal run of leading
digits, and when that run is non-empty returns the `Int` node holding
their base-10 value (most significant digit first) in wrapping `u64`
arithmetic, together with the input minus that run. -/
theorem integer_spec (ts : List Token) :
    integer ts =
      if ts.takeWhile Token.is_digit = [] then none
      else
        some ⟨.int (hornerVal ((ts.takeWhile Token.is_digit).map Token.value) % u64size),
              ts.drop (ts.takeWhile Token.is_digit).length⟩ := by
  simp only [integer]
  split
  case h_1 heq =>
    rw [List.length_eq_zero] at heq
    rw [List.map_eq_nil_iff] at heq
    simp [heq]
  case h_2 k heq =>
    have hne : ts.takeWhile Token.is_digit ≠ [] := by
      intro hcon
      rw [hcon] at heq
      simp at heq
    rw [if_neg hne]
    have henum : ((ts.takeWhile Token.is_digit).map Token.value).reverse.enum
        = List.enumFrom 0 ((ts.takeWhile Token.is_digit).map Token.value).reverse := rfl
    rw [henum, wrapFold_enumFrom _ 0 0 u64size_pos, hornerVal_eq]
    simp

theorem takeWhile_digit_append (ds : List ℕ) (rest : List Token)
    (hrest : ∀ t ∈ rest.head?, t.is_digit = false) :
    (ds.map Token.digit ++ rest).takeWhile Token.is_digit = ds.map Token.digit := by
  induction ds with
  | nil =>
    cases rest with
    | nil => simp
    | cons t r =>
      have hf : t.is_digit = false := hrest t (by simp)
      simp [List.takeWhile_cons, hf]
  | cons d t ih =>
    simp [List.takeWhile_cons, Token.is_digit, ih]

theorem map_value_digits (ds : List ℕ) :
    (ds.map Token.digit).map Token.value = ds := by
  induction ds with
  | nil => simp
  | cons d t ih => simp [Token.value, ih]

/-- `factor` on a non-empty run of digit tokens followed by a
non-digit remainder: the greedy integer path produces the `Int` node
with the digits' base-10 value and stops before the remainder. -/
theorem factor_digits (ds : List ℕ) (rest : List Token) (hne : ds ≠ [])
    (hrest : ∀ t ∈ rest.head?, t.is_digit = false) :
    factor (ds.map Token.digit ++ rest)
      = .ok ⟨.int (hornerVal ds % u64size), rest⟩ := by
  rw [factor_eq, integer_spec, takeWhile_digit_append ds rest hrest]
  have hmapne : ds.map Token.digit ≠ [] := by simpa using hne
  rw [if_neg hmapne]
  simp only [map_value_digits]
  have hdrop : (ds.map Token.digit ++ rest).drop (ds.map Token.digit).length = rest :=
    List.drop_left _ _
  rw [hdrop]

theorem term_digits (ds : List ℕ) (hne : ds ≠ []) :
    term (ds.map Token.digit) = .ok ⟨.int (hornerVal ds % u64size), []⟩ := by
  have hf := factor_digits ds [] hne (by simp)
  rw [List.append_nil] at hf
  rw [term_eq, hf]

theorem expression_digits (ds : List ℕ) (hne : ds ≠ []) :
    expression (ds.map Token.digit) = .ok ⟨.int (hornerVal ds % u64size), []⟩ := by
  rw [expression_eq, term_digits ds hne]

theorem scanChar_digit (c : Char) (h1 : '0' ≤ c) (h2 : c ≤ '9') :
    scanChar c = some (.digit (c.toNat - 48)) := by
  simp [scanChar, h1, h2]

/-- Scanning a pure run of decimal digit characters yields one `Digit`
token per character. -/
theorem scan_digits : ∀ s : List Char, (∀ c ∈ s, '0' ≤ c ∧ c ≤ '9') →
    scan (String.mk s) = ((s.map fun c => c.toNat - 48).map Token.digit) := by
  intro s
  induction s with
  | nil => intro hd; rfl
  | cons c t ih =>
    intro hd
    have hc := hd c (by simp)
    have ht : ∀ c ∈ t, '0' ≤ c ∧ c ≤ '9' := fun x hx => hd x (by simp [hx])
    have hstep := ih ht
    simp only [scan, show (String.mk (c :: t)).data = c :: t from rfl,
      List.filterMap_cons, scanChar_digit c hc.1 hc.2]
    simp only [scan, show (String.mk t).data = t from rfl] at hstep
    simp [hstep]

theorem f64OfNat_small (n : ℕ) (h : n ≤ 2 ^ 53) : f64OfNat n = n := by
  unfold f64OfNat
  rw [if_pos h]

/-- Evaluating a string of decimal digits whose value is at most
`2 ^ 53` gives exactly that value. -/
theorem eval_digit_string (s : List Char) (hne : s ≠ [])
    (hd : ∀ c ∈ s, '0' ≤ c ∧ c ≤ '9')
    (hsmall : hornerVal (s.map fun c => c.toNat - 48) ≤ 2 ^ 53) :
    eval (String.mk s) = .ok ((hornerVal (s.map fun c => c.toNat - 48) : ℕ) : ℚ) := by
  have hds : (s.map fun c => c.toNat - 48) ≠ [] := by simpa using hne
  have hmod : hornerVal (s.map fun c => c.toNat - 48) % u64size
      = hornerVal (s.map fun c => c.toNat - 48) := by
    apply Nat.mod_eq_of_lt
    calc hornerVal (s.map fun c => c.toNat - 48) ≤ 2 ^ 53 := hsmall
    _ < u64size := by simp [u64size]
  simp only [eval, scan_digits s hd, expression_digits _ hds, hmod]
  simp only [List.length_nil]
  simp only [Node.value, f64OfNat_small _ hsmall]

/-- `struct Token` from `src/scanner.rs`: a token kind (the same closed
variant as `src/lib.rs`'s `Token`) plus the character index it came
from. -/
structure PToken where
  kind : Token
  position : ℕ
deriving DecidableEq

/-- The `Scanner` iterator of `src/scanner.rs`, run to completion:
each character is classified exactly as in `scan`, whitespace advances
the index without emitting, and every emitted token carries the index
of its character in the original text. -/
def scanPAux : ℕ → List Char → List PToken
  | _, [] => []
  | ix, ch :: rest =>
    if '0' ≤ ch ∧ ch ≤ '9' then ⟨.digit (ch.toNat - 48), ix⟩ :: scanPAux (ix + 1) rest
    else if ch = '+' then ⟨.plus, ix⟩ :: scanPAux (ix + 1) rest
    else if ch = '-' then ⟨.minus, ix⟩ :: scanPAux (ix + 1) rest
    else if ch = '*' then ⟨.star, ix⟩ :: scanPAux (ix + 1) rest
    else if ch = '/' then ⟨.solidus, ix⟩ :: scanPAux (ix + 1) rest
    else if ch = '(' then ⟨.leftParen, ix⟩ :: scanPAux (ix + 1) rest
    else if ch = ')' then ⟨.rightParen, ix⟩ :: scanPAux (ix + 1) rest
    else if ch = ' ' ∨ ch = '\n' ∨ ch = '\t' then scanPAux (ix + 1) rest
    else ⟨.unrecognized ch, ix⟩ :: scanPAux (ix + 1) rest

/-- `Scanner::new(text).collect()` from `src/scanner.rs`. -/
def scanP (text : String) : List PToken := scanPAux 0 text.data

theorem scanPAux_cons (ix : ℕ) (c : Char) (t : List Char) :
    scanPAux ix (c :: t) =
      match scanChar c with
      | some k => ⟨k, ix⟩ :: scanPAux (ix + 1) t
      | none => scanPAux (ix + 1) t := by
  simp only [scanPAux, scanChar]
  split_ifs <;> rfl

/-- The recursive scanner equals the direct description: enumerate the
characters from the start index, drop whitespace, and pair each
remaining character's token with that character's index. -/
theorem scanPAux_eq : ∀ (cs : List Char) (ix : ℕ),
    scanPAux ix cs = (List.enumFrom ix cs).filterMap
      (fun p => (scanChar p.2).map fun k => PToken.mk k p.1) := by
  intro cs
  induction cs with
  | nil => intro ix; simp [scanPAux]
  | cons c t ih =>
    intro ix
    rw [scanPAux_cons]
    cases hc : scanChar c with
    | none => simp [List.enumFrom, List.filterMap_cons, hc, ih]
    | some k => simp [List.enumFrom, List.filterMap_cons, hc, ih]

/-- `scanP`, characterised over the whole text. -/
theorem scanP_eq (text : String) :
    scanP text = text.data.enum.filterMap
      (fun p => (scanChar p.2).map fun k => PToken.mk k p.1) := by
  rw [show text.data.enum = List.enumFrom 0 text.data from rfl]
  exact scanPAux_eq text.data 0

/-- `enum ParseError` from `src/error.rs`: the positioned error kinds,
plus the dedicated end-of-input condition carrying no position. -/
inductive ParseErrorP where
  | unexpectedEof
  | unexpectedToken
  | invalidToken (pos : ℕ)
  | invalidGroup (pos : ℕ)
  | factorExpected (pos : ℕ)
deriving DecidableEq

/-- A parse result over positioned tokens. -/
structure PartialP where
  node : Node
  tokens : List PToken
deriving DecidableEq

/-- `Result<PartialP, ParseErrorP>`. -/
inductive ParseResultP where
  | ok (p : PartialP)
  | err (e : ParseErrorP)
deriving DecidableEq

/-- `Result<f64, ParseErrorP>`. -/
inductive EvalResultP where
  | ok (v : ℚ)
  | err (e : ParseErrorP)
deriving DecidableEq

/-- Modelled from the spec: the `integer` production over positioned
tokens (the repository declares the positioned `Token` in
`src/scanner.rs` and the positioned `ParseError` in `src/error.rs`, but
the parser that threads positions into errors is missing from `src/`;
this production is the same greedy digit run as `integer` in
`src/lib.rs`, reading kinds through the positioned tokens). -/
def integerP (tokens : List PToken) : Option PartialP :=
  let digits := (tokens.takeWhile fun t => t.kind.is_digit).map fun t => t.kind.value
  let sum := digits.reverse.enum.foldl
    (fun sum p => (sum + (p.2 * (10 ^ p.1 % u64size)) % u64size) % u64size) 0
  match digits.length with
  | 0 => none
  | _ + 1 => some ⟨.int sum, tokens.drop digits.length⟩

/-- Modelled from the spec: the positioned recursive-descent parser
(`src/error.rs` declares its error kinds and §4.2 of the specification
its behaviour; the parser source threading positions is missing from
`src/`).  Same grammar and fuel discipline as `parse`; error sites
follow the spec: `InvalidToken`/`InvalidGroup`/`FactorExpected` carry
the offending token's position, and end of input where a factor or a
`)` was still expected is the position-less `UnexpectedEof`. -/
def parseP : ℕ → Rule → List PToken → Option ParseResultP
  | 0, _, _ => none
  | fuel + 1, .expression, tokens =>
    match parseP fuel .term tokens with
    | none => none
    | some (.err e) => some (.err e)
    | some (.ok t) =>
      match t.tokens with
      | [] => some (.ok t)
      | tok :: rest =>
        match tok.kind with
        | .plus =>
          match parseP fuel .expression rest with
          | none => none
          | some (.err e) => some (.err e)
          | some (.ok ex) => some (.ok ⟨.add t.node ex.node, ex.tokens⟩)
        | .minus =>
          match parseP fuel .expression rest with
          | none => none
          | some (.err e) => some (.err e)
          | some (.ok ex) => some (.ok ⟨.subtract t.node ex.node, ex.tokens⟩)
        | .unrecognized _ => some (.err (.invalidToken tok.position))
        | _ => some (.ok t)
  | fuel + 1, .term, tokens =>
    match parseP fuel .factor tokens with
    | none => none
    | some (.err e) => some (.err e)
    | some (.ok fc) =>
      match fc.tokens with
      | [] => some (.ok fc)
      | tok :: rest =>
        match tok.kind with
        | .star =>
          match parseP fuel .term rest with
          | none => none
          | some (.err e) => some (.err e)
          | some (.ok tm) => some (.ok ⟨.multiply fc.node tm.node, tm.tokens⟩)
        | .solidus =>
          match parseP fuel .term rest with
          | none => none
          | some (.err e) => some (.err e)
          | some (.ok tm) => some (.ok ⟨.divide fc.node tm.node, tm.tokens⟩)
        | .unrecognized _ => some (.err (.invalidToken tok.position))
        | _ => some (.ok fc)
  | fuel + 1, .factor, tokens =>
    match integerP tokens with
    | some p => some (.ok p)
    | none =>
      match tokens with
      | [] => some (.err .unexpectedEof)
      | tok :: rest =>
        match tok.kind with
        | .minus =>
          match parseP fuel .factor rest with
          | none => none
          | some (.err e) => some (.err e)
          | some (.ok fc) => some (.ok ⟨.negate fc.node, fc.tokens⟩)
        | .leftParen =>
          match parseP fuel .expression rest with
          | none => none
          | some (.err e) => some (.err e)
          | some (.ok ex) =>
            match ex.tokens with
            | [] => some (.err .unexpectedEof)
            | tok2 :: rest2 =>
              match tok2.kind with
              | .rightParen => some (.ok ⟨ex.node, rest2⟩)
              | _ => some (.err (.invalidGroup tok2.position))
        | _ => some (.err (.factorExpected tok.position))

/-- One-step unfolding of the `expression` branch of `parseP`. -/
theorem parseP_expression_def (f : ℕ) (ts : List PToken) :
    parseP (f + 1) Rule.expression ts =
      match parseP f Rule.term ts with
      | none => none
      | some (.err e) => some (.err e)
      | some (.ok t) =>
        match t.tokens with
        | [] => some (.ok t)
        | tok :: rest =>
          match tok.kind with
          | .plus =>
            match parseP f Rule.expression rest with
            | none => none
            | some (.err e) => some (.err e)
            | some (.ok ex) => some (.ok ⟨.add t.node ex.node, ex.tokens⟩)
          | .minus =>
            match parseP f Rule.expression rest with
            | none => none
            | some (.err e) => some (.err e)
            | some (.ok ex) => some (.ok ⟨.subtract t.node ex.node, ex.tokens⟩)
          | .unrecognized _ => some (.err (.invalidToken tok.position))
          | _ => some (.ok t) := rfl

/-- One-step unfolding of the `factor` branch of `parseP`. -/
theorem parseP_factor_def (f : ℕ) (ts : List PToken) :
    parseP (f + 1) Rule.factor ts =
      match integerP ts with
      | some p => some (.ok p)
      | none =>
        match ts with
        | [] => some (.err .unexpectedEof)
        | tok :: rest =>
          match tok.kind with
          | .minus =>
            match parseP f Rule.factor rest with
            | none => none
            | some (.err e) => some (.err e)
            | some (.ok fc) => some (.ok ⟨.negate fc.node, fc.tokens⟩)
          | .leftParen =>
            match parseP f Rule.expression rest with
            | none => none
            | some (.err e) => some (.err e)
            | some (.ok ex) =>
              match ex.tokens with
              | [] => some (.err .unexpectedEof)
              | tok2 :: rest2 =>
                match tok2.kind with
                | .rightParen => some (.ok ⟨ex.node, rest2⟩)
                | _ => some (.err (.invalidGroup tok2.position))
          | _ => some (.err (.factorExpected tok.position)) := rfl

/-- Modelled from the spec: the `evaluate` entry point over the
positioned pipeline (scan with positions, parse the whole token list,
demand an empty remainder).  The fuel argument is explicit; any fuel
above `3 * tokens + 3` behaves identically, and the concrete theorems
below use a fuel that is visibly sufficient. -/
def evaluateP (fuel : ℕ) (text : String) : Option EvalResultP :=
  match parseP fuel Rule.expression (scanP text) with
  | none => none
  | some (.err e) => some (.err e)
  | some (.ok p) =>
    match p.tokens.length with
    | 0 => some (.ok p.node.value)
    | _ + 1 => some (.err .unexpectedToken)

/-- `enum Binary` from `src/node.rs`. -/
inductive Binary where
  | add
  | subtract
  | multiply
  | divide
deriving DecidableEq

/-- The node model of `src/node.rs`: `BinaryOp`, `UnaryOp` (whose only
operator is `Negate`) and `Constant`, each carrying its `id` (the
spec's `position`). -/
inductive NodeG where
  | binary (id : ℕ) (op : Binary) (lhs rhs : NodeG)
  | unary (id : ℕ) (operand : NodeG)
  | constant (id : ℕ) (value : ℕ)
deriving DecidableEq

/-- `Node::id` from `src/node.rs`. -/
def NodeG.id : NodeG → ℕ
  | .binary i _ _ _ => i
  | .unary i _ => i
  | .constant i _ => i

/-- The `fmt::Display` implementations of `src/node.rs`: `+ - * /` for
the binary operators, `-` for negation, the decimal literal for a
constant. -/
def NodeG.display : NodeG → String
  | .binary _ .add _ _ => "+"
  | .binary _ .subtract _ _ => "-"
  | .binary _ .multiply _ _ => "*"
  | .binary _ .divide _ _ => "/"
  | .unary _ _ => "-"
  | .constant _ v => toString v

/-- `Node::children` from `src/node.rs`. -/
def NodeG.children : NodeG → List NodeG
  | .binary _ _ lhs rhs => [lhs, rhs]
  | .unary _ operand => [operand]
  | .constant _ _ => []

/-- Number of nodes in a `NodeG` tree. -/
def NodeG.size : NodeG → ℕ
  | .binary _ _ lhs rhs => lhs.size + rhs.size + 1
  | .unary _ operand => operand.size + 1
  | .constant _ _ => 1

/-- Total size of a stack of graph nodes. -/
def stackSizeG (stack : List NodeG) : ℕ := (stack.map NodeG.size).sum

/-- The `Iter` of `src/iter.rs`, run to completion: `next` pops a node,
appends its reversed children to the stack (so the first child is on
top), and yields the popped node. -/
def runIterGFuel : ℕ → List NodeG → List NodeG
  | 0, _ => []
  | _ + 1, [] => []
  | fuel + 1, n :: rest => n :: runIterGFuel fuel (n.children ++ rest)

/-- The iterator of `src/iter.rs` run on an initial stack. -/
def runIterG (stack : List NodeG) : List NodeG := runIterGFuel (stackSizeG stack) stack

/-- Pre-order depth-first listing of a `NodeG` tree. -/
def preorderG : NodeG → List NodeG
  | .binary i op lhs rhs => .binary i op lhs rhs :: (preorderG lhs ++ preorderG rhs)
  | .unary i operand => .unary i operand :: preorderG operand
  | .constant i v => [.constant i v]

theorem nodeG_size_pos (n : NodeG) : 1 ≤ n.size := by
  cases n <;> simp [NodeG.size]

/-- With sufficient fuel, the explicit-stack iterator yields the
concatenated pre-orders of the stacked trees. -/
theorem runIterGFuel_eq : ∀ (fuel : ℕ) (stack : List NodeG),
    stackSizeG stack ≤ fuel →
    runIterGFuel fuel stack = (stack.map preorderG).flatten := by
  intro fuel
  induction fuel with
  | zero =>
    intro stack hb
    cases stack with
    | nil => simp [runIterGFuel]
    | cons n rest =>
      exfalso
      have := nodeG_size_pos n
      simp [stackSizeG] at hb
      omega
  | succ f ih =>
    intro stack hb
    cases stack with
    | nil => simp [runIterGFuel]
    | cons n rest =>
      simp only [runIterGFuel]
      have hsz : stackSizeG (n.children ++ rest) + 1 = stackSizeG (n :: rest) := by
        cases n <;>
          simp [stackSizeG, NodeG.children, NodeG.size, List.map_append] <;> try omega
      have hb' : stackSizeG (n.children ++ rest) ≤ f := by
        simp only [stackSizeG] at hb hsz ⊢
        omega
      rw [ih (n.children ++ rest) hb']
      cases n <;>
        simp [NodeG.children, preorderG, List.map_append, List.append_assoc]

/-- Running the `src/iter.rs` iterator from a single root yields the
pre-order traversal. -/
theorem runIterG_eq_preorderG (t : NodeG) : runIterG [t] = preorderG t := by
  have h := runIterGFuel_eq (stackSizeG [t]) [t] le_rfl
  simpa [runIterG] using h

/-- `Graph::stmt` from `src/graph.rs`: the node-declaration line and,
when the node has children, the edge-declaration line listing all
immediate children in one statement. -/
def Graph.stmt (node : NodeG) : String :=
  "  " ++ toString node.id ++ " [ label = \"" ++ node.display ++ "\" ]" ++
    (if node.children.isEmpty then ""
     else "\n  " ++ toString node.id ++ " -- \x7b" ++
       String.join (node.children.map fun child => " " ++ toString child.id) ++ " \x7d")

/-- `Graph::dot` from `src/graph.rs`: iterate the tree, render each
node's statement(s), join with newlines, and wrap in the fixed
header and footer. -/
def Graph.dot (node : NodeG) : String :=
  "strict graph \x7b\n" ++ String.intercalate "\n" ((runIterG [node]).map Graph.stmt)
    ++ "\n\x7d"

/-- The node-declaration line, as the spec format states it (two
leading spaces). -/
def nodeLine (n : NodeG) : String :=
  "  " ++ toString n.id ++ " [ label = \"" ++ n.display ++ "\" ]"

/-- The edge-declaration line as the source emits it: two leading
spaces, then the node, then all its children in one statement. -/
def edgeLine (n : NodeG) : String :=
  "  " ++ toString n.id ++ " -- \x7b"
    ++ String.join (n.children.map fun child => " " ++ toString child.id) ++ " \x7d"

/-- The edge-declaration line exactly as the claim quotes it, with a
single leading space. -/
def edgeLineClaim (n : NodeG) : String :=
  " " ++ toString n.id ++ " -- \x7b"
    ++ String.join (n.children.map fun child => " " ++ toString child.id) ++ " \x7d"

/-- The claimed output format, read literally: pre-order nodes, a node
line for every node, an edge line (single leading space) for every node
with children, all lines joined by newlines inside the fixed
header/footer. -/
def dotClaim (t : NodeG) : String :=
  "strict graph \x7b\n" ++
    String.intercalate "\n" ((preorderG t).map fun n =>
      nodeLine n ++ (if n.children.isEmpty then "" else "\n" ++ edgeLineClaim n))
    ++ "\n\x7d"

/-- The claimed format with the edge line corrected to two leading
spaces. -/
def dotAmended (t : NodeG) : String :=
  "strict graph \x7b\n" ++
    String.intercalate "\n" ((preorderG t).map fun n =>
      nodeLine n ++ (if n.children.isEmpty then "" else "\n" ++ edgeLine n))
    ++ "\n\x7d"

theorem Graph.stmt_eq (n : NodeG) :
    Graph.stmt n = nodeLine n ++ (if n.children.isEmpty then "" else "\n" ++ edgeLine n) := by
  simp only [Graph.stmt, nodeLine, edgeLine]
  split_ifs with h <;> rfl

/-- The exporter's output equals the amended declarative format: one
node line per pre-order node and one two-space edge line per node with
children, joined by newlines inside the fixed header/footer. -/
theorem dot_eq_amended (t : NodeG) : Graph.dot t = dotAmended t := by
  have hfun : Graph.stmt = fun n =>
      nodeLine n ++ (if n.children.isEmpty then "" else "\n" ++ edgeLine n) :=
    funext Graph.stmt_eq
  simp only [Graph.dot, dotAmended, runIterG_eq_preorderG, hfun]

theorem factor_single_digit (a : ℕ) (ha : a < 10) (rest : List Token)
    (hrest : ∀ t2 ∈ rest.head?, t2.is_digit = false) :
    factor (Token.digit a :: rest) = .ok ⟨.int a, rest⟩ := by
  have hv : hornerVal [a] % u64size = a := by
    have h1 : hornerVal [a] = a := by simp [hornerVal]
    rw [h1]
    exact Nat.mod_eq_of_lt (lt_trans ha (by norm_num [u64size]))
  have h := factor_digits [a] rest (by simp) hrest
  simpa [hv] using h

theorem term_single_digit (c : ℕ) (hc : c < 10) :
    term [Token.digit c] = .ok ⟨.int c, []⟩ := by
  rw [term_eq, factor_single_digit c hc [] (by intro t ht; simp at ht)]

theorem expression_single_digit (c : ℕ) (hc : c < 10) :
    expression [Token.digit c] = .ok ⟨.int c, []⟩ := by
  rw [expression_eq, term_single_digit c hc]

theorem term_digit_star_digit (b c : ℕ) (hb : b < 10) (hc : c < 10) :
    term [Token.digit b, Token.star, Token.digit c]
      = .ok ⟨.multiply (.int b) (.int c), []⟩ := by
  have hf := factor_single_digit b hb [Token.star, Token.digit c]
    (by intro t ht; simp at ht; subst ht; rfl)
  rw [term_eq, hf]
  simp only []
  rw [term_single_digit c hc]

theorem term_digit_solidus_digit (b c : ℕ) (hb : b < 10) (hc : c < 10) :
    term [Token.digit b, Token.solidus, Token.digit c]
      = .ok ⟨.divide (.int b) (.int c), []⟩ := by
  have hf := factor_single_digit b hb [Token.solidus, Token.digit c]
    (by intro t ht; simp at ht; subst ht; rfl)
  rw [term_eq, hf]
  simp only []
  rw [term_single_digit c hc]

/-- `scanChar` yields no token exactly on space, newline and tab. -/
theorem scanChar_none_iff (ch : Char) :
    scanChar ch = none ↔ (ch = ' ' ∨ ch = '\n' ∨ ch = '\t') := by
  simp only [scanChar]
  split_ifs with h1 h2 h3 h4 h5 h6 h7 h8
  · exact iff_of_false (by simp)
      (by rintro (rfl | rfl | rfl) <;> exact absurd h1 (by decide))
  · exact iff_of_false (by simp)
      (by rintro (rfl | rfl | rfl) <;> exact absurd h2 (by decide))
  · exact iff_of_false (by simp)
      (by rintro (rfl | rfl | rfl) <;> exact absurd h3 (by decide))
  · exact iff_of_false (by simp)
      (by rintro (rfl | rfl | rfl) <;> exact absurd h4 (by decide))
  · exact iff_of_false (by simp)
      (by rintro (rfl | rfl | rfl) <;> exact absurd h5 (by decide))
  · exact iff_of_false (by simp)
      (by rintro (rfl | rfl | rfl) <;> exact absurd h6 (by decide))
  · exact iff_of_false (by simp)
      (by rintro (rfl | rfl | rfl) <;> exact absurd h7 (by decide))
  · exact iff_of_true rfl h8
  · exact iff_of_false (by simp) h8

/-- C1: chained same-precedence binary operators parse
right-associatively: whenever a term is followed by `-` (resp. a factor
by `/`), the right operand is the entire following `expression` (resp.
`term`), so `eval "8 - 3 - 2" = Ok 7` (not 3) and
`eval "8 / 4 / 2" = Ok 4` (not 1). -/
theorem C1_right_assoc :
    (∀ (ts rest : List Token) (t q : Partial),
        term ts = .ok t → t.tokens = Token.minus :: rest →
        expression rest = .ok q →
        expression ts = .ok ⟨.subtract t.node q.node, q.tokens⟩)
    ∧ (∀ (ts rest : List Token) (fc q : Partial),
        factor ts = .ok fc → fc.tokens = Token.solidus :: rest →
        term rest = .ok q →
        term ts = .ok ⟨.divide fc.node q.node, q.tokens⟩)
    ∧ eval "8 - 3 - 2" = .ok 7
    ∧ eval "8 - 3 - 2" ≠ .ok 3
    ∧ eval "8 / 4 / 2" = .ok 4
    ∧ eval "8 / 4 / 2" ≠ .ok 1 := by
  have h7 : eval "8 - 3 - 2" = .ok 7 := by
    have hp : expression (scan "8 - 3 - 2")
        = .ok ⟨.subtract (.int 8) (.subtract (.int 3) (.int 2)), []⟩ := by decide
    simp only [eval, hp, List.length_nil]
    simp only [Node.value]
    rw [f64OfNat_small 8 (by norm_num), f64OfNat_small 3 (by norm_num),
      f64OfNat_small 2 (by norm_num)]
    simp only [EvalResult.ok.injEq]
    norm_num
  have h4 : eval "8 / 4 / 2" = .ok 4 := by
    have hp : expression (scan "8 / 4 / 2")
        = .ok ⟨.divide (.int 8) (.divide (.int 4) (.int 2)), []⟩ := by decide
    simp only [eval, hp, List.length_nil]
    simp only [Node.value]
    rw [f64OfNat_small 8 (by norm_num), f64OfNat_small 4 (by norm_num),
      f64OfNat_small 2 (by norm_num)]
    simp only [EvalResult.ok.injEq]
    norm_num
  refine ⟨?_, ?_, h7, ?_, h4, ?_⟩
  · intro ts rest t q ht htok hq
    rw [expression_eq, ht]
    simp only []
    rw [htok]
    simp only []
    rw [hq]
  · intro ts rest fc q hf htok hq
    rw [term_eq, hf]
    simp only []
    rw [htok]
    simp only []
    rw [hq]
  · intro hcon
    rw [h7] at hcon
    simp only [EvalResult.ok.injEq] at hcon
    norm_num at hcon
  · intro hcon
    rw [h4] at hcon
    simp only [EvalResult.ok.injEq] at hcon
    norm_num at hcon

/-- C1 witness: the right-associative grouping lemma applied to the
concrete parse of `8 - 3 - 2`. -/
theorem C1_right_assoc_witness :
    term (scan "8 - 3 - 2")
      = .ok ⟨.int 8, [Token.minus, Token.digit 3, Token.minus, Token.digit 2]⟩
    ∧ expression [Token.digit 3, Token.minus, Token.digit 2]
      = .ok ⟨.subtract (.int 3) (.int 2), []⟩
    ∧ expression (scan "8 - 3 - 2")
      = .ok ⟨.subtract (.int 8) (.subtract (.int 3) (.int 2)), []⟩ :=
  ⟨by decide, by decide,
    C1_right_assoc.1 (scan "8 - 3 - 2") [Token.digit 3, Token.minus, Token.digit 2]
      ⟨.int 8, [Token.minus, Token.digit 3, Token.minus, Token.digit 2]⟩
      ⟨.subtract (.int 3) (.int 2), []⟩ (by decide) (by decide) (by decide)⟩

/-- C2: multiplicative operators bind tighter than additive ones: in
`d1 (+|-) d2 (*|/) d3` the multiplicative pair is grouped under the
additive node, and `eval "4 + 2 * 8" = Ok 20`. -/
theorem C2_precedence :
    (∀ a b c : ℕ, a < 10 → b < 10 → c < 10 →
      expression [Token.digit a, Token.plus, Token.digit b, Token.star, Token.digit c]
        = .ok ⟨.add (.int a) (.multiply (.int b) (.int c)), []⟩)
    ∧ (∀ a b c : ℕ, a < 10 → b < 10 → c < 10 →
      expression [Token.digit a, Token.minus, Token.digit b, Token.star, Token.digit c]
        = .ok ⟨.subtract (.int a) (.multiply (.int b) (.int c)), []⟩)
    ∧ (∀ a b c : ℕ, a < 10 → b < 10 → c < 10 →
      expression [Token.digit a, Token.plus, Token.digit b, Token.solidus, Token.digit c]
        = .ok ⟨.add (.int a) (.divide (.int b) (.int c)), []⟩)
    ∧ (∀ a b c : ℕ, a < 10 → b < 10 → c < 10 →
      expression [Token.digit a, Token.minus, Token.digit b, Token.solidus, Token.digit c]
        = .ok ⟨.subtract (.int a) (.divide (.int b) (.int c)), []⟩)
    ∧ eval "4 + 2 * 8" = .ok 20 := by
  have h20 : eval "4 + 2 * 8" = .ok 20 := by
    have hp : expression (scan "4 + 2 * 8")
        = .ok ⟨.add (.int 4) (.multiply (.int 2) (.int 8)), []⟩ := by decide
    simp only [eval, hp, List.length_nil]
    simp only [Node.value]
    rw [f64OfNat_small 4 (by norm_num), f64OfNat_small 2 (by norm_num),
      f64OfNat_small 8 (by norm_num)]
    simp only [EvalResult.ok.injEq]
    norm_num
  have hcase : ∀ (a b c : ℕ), a < 10 → b < 10 → c < 10 →
      ∀ (op1 op2 : Token) (mk1 mk2 : Node → Node → Node),
        (op1 = Token.plus ∧ mk1 = Node.add ∨ op1 = Token.minus ∧ mk1 = Node.subtract) →
        (op2 = Token.star ∧ mk2 = Node.multiply
          ∨ op2 = Token.solidus ∧ mk2 = Node.divide) →
        expression [Token.digit a, op1, Token.digit b, op2, Token.digit c]
          = .ok ⟨mk1 (.int a) (mk2 (.int b) (.int c)), []⟩ := by
    intro a b c ha hb hc op1 op2 mk1 mk2 hop1 hop2
    have hterm2 : term [Token.digit b, op2, Token.digit c]
        = .ok ⟨mk2 (.int b) (.int c), []⟩ := by
      rcases hop2 with ⟨rfl, rfl⟩ | ⟨rfl, rfl⟩
      · exact term_digit_star_digit b c hb hc
      · exact term_digit_solidus_digit b c hb hc
    have hexpr2 : expression [Token.digit b, op2, Token.digit c]
        = .ok ⟨mk2 (.int b) (.int c), []⟩ := by
      rw [expression_eq, hterm2]
    have hop2ne : op2.is_digit = false := by
      rcases hop2 with ⟨rfl, _⟩ | ⟨rfl, _⟩ <;> rfl
    rcases hop1 with ⟨rfl, rfl⟩ | ⟨rfl, rfl⟩
    · have hfa := factor_single_digit a ha
        [Token.plus, Token.digit b, op2, Token.digit c]
        (by intro t2 ht2; simp at ht2; subst ht2; rfl)
      have hterm1 : term [Token.digit a, Token.plus, Token.digit b, op2, Token.digit c]
          = .ok ⟨.int a, [Token.plus, Token.digit b, op2, Token.digit c]⟩ := by
        rw [term_eq, hfa]
      rw [expression_eq, hterm1]
      simp only []
      rw [hexpr2]
    · have hfa := factor_single_digit a ha
        [Token.minus, Token.digit b, op2, Token.digit c]
        (by intro t2 ht2; simp at ht2; subst ht2; rfl)
      have hterm1 : term [Token.digit a, Token.minus, Token.digit b, op2, Token.digit c]
          = .ok ⟨.int a, [Token.minus, Token.digit b, op2, Token.digit c]⟩ := by
        rw [term_eq, hfa]
      rw [expression_eq, hterm1]
      simp only []
      rw [hexpr2]
  refine ⟨?_, ?_, ?_, ?_, h20⟩
  · intro a b c ha hb hc
    exact hcase a b c ha hb hc Token.plus Token.star Node.add Node.multiply
      (Or.inl ⟨rfl, rfl⟩) (Or.inl ⟨rfl, rfl⟩)
  · intro a b c ha hb hc
    exact hcase a b c ha hb hc Token.minus Token.star Node.subtract Node.multiply
      (Or.inr ⟨rfl, rfl⟩) (Or.inl ⟨rfl, rfl⟩)
  · intro a b c ha hb hc
    exact hcase a b c ha hb hc Token.plus Token.solidus Node.add Node.divide
      (Or.inl ⟨rfl, rfl⟩) (Or.inr ⟨rfl, rfl⟩)
  · intro a b c ha hb hc
    exact hcase a b c ha hb hc Token.minus Token.solidus Node.subtract Node.divide
      (Or.inr ⟨rfl, rfl⟩) (Or.inr ⟨rfl, rfl⟩)

/-- C2 witness: the precedence lemma at the digits of `4 + 2 * 8`. -/
theorem C2_precedence_witness :
    ((4 : ℕ) < 10 ∧ (2 : ℕ) < 10 ∧ (8 : ℕ) < 10)
    ∧ expression [Token.digit 4, Token.plus, Token.digit 2, Token.star, Token.digit 8]
      = .ok ⟨.add (.int 4) (.multiply (.int 2) (.int 8)), []⟩ :=
  ⟨⟨by decide, by decide, by decide⟩,
    C2_precedence.1 4 2 8 (by decide) (by decide) (by decide)⟩

/-- C3 counterexample: the 16-digit literal `9007199254740993`
(`2 ^ 53 + 1`) parses to exactly that constant, but its `f64` value —
and hence `eval`'s result — is the rounded `9007199254740992`, not the
literal's value.  The claim's "returns Ok of exactly n" fails here. -/
theorem C3_counterexample :
    eval "9007199254740993" ≠ .ok ((9007199254740993 : ℕ) : ℚ)
    ∧ eval "9007199254740993" = .ok ((9007199254740992 : ℕ) : ℚ)
    ∧ expression (scan "9007199254740993") = .ok ⟨.int 9007199254740993, []⟩
    ∧ f64OfNat 9007199254740993 = 9007199254740992 := by
  have hp : expression (scan "9007199254740993")
      = .ok ⟨.int 9007199254740993, []⟩ := by decide
  have hf : f64OfNat 9007199254740993 = 9007199254740992 := by decide
  have heval : eval "9007199254740993" = .ok ((9007199254740992 : ℕ) : ℚ) := by
    simp only [eval, hp, List.length_nil]
    simp only [Node.value, hf]
  refine ⟨?_, heval, hp, hf⟩
  intro hcon
  rw [heval] at hcon
  simp only [EvalResult.ok.injEq] at hcon
  norm_num at hcon

/-- C3 amended: for every decimal digit string whose value is at most
`2 ^ 53`, `eval` returns Ok of exactly that value (larger literals are
rounded to the nearest representable double); and `factor` greedily
consumes the maximal run of leading `Digit` tokens, producing a single
`Constant` whose value is the base-10 (most significant first)
combination of the digits in wrapping `u64` arithmetic. -/
theorem C3_literal :
    (∀ s : List Char, s ≠ [] → (∀ c ∈ s, '0' ≤ c ∧ c ≤ '9') →
      hornerVal (s.map fun c => c.toNat - 48) ≤ 2 ^ 53 →
      eval (String.mk s) = .ok ((hornerVal (s.map fun c => c.toNat - 48) : ℕ) : ℚ))
    ∧ (∀ (ds : List ℕ) (rest : List Token), ds ≠ [] →
        (∀ t2 ∈ rest.head?, t2.is_digit = false) →
        factor (ds.map Token.digit ++ rest)
          = .ok ⟨.int (hornerVal ds % u64size), rest⟩) :=
  ⟨eval_digit_string, factor_digits⟩

/-- C3 witness: the literal lemma at the two-digit string `42` and the
greedy-consumption lemma at the digit run `1 0 2` followed by `+`. -/
theorem C3_literal_witness :
    ((['4', '2'] : List Char) ≠ []
      ∧ hornerVal (['4', '2'].map fun c => c.toNat - 48) = 42
      ∧ eval (String.mk ['4', '2'])
        = .ok ((hornerVal (['4', '2'].map fun c => c.toNat - 48) : ℕ) : ℚ))
    ∧ factor ([1, 0, 2].map Token.digit ++ [Token.plus])
      = .ok ⟨.int (hornerVal [1, 0, 2] % u64size), [Token.plus]⟩ :=
  ⟨⟨by decide, by decide,
    C3_literal.1 ['4', '2'] (by decide) (by decide) (by decide)⟩,
    C3_literal.2 [1, 0, 2] [Token.plus] (by decide)
      (by intro t2 ht2; simp at ht2; subst ht2; rfl)⟩

/-- C4: a parenthesised group whose input ends before the closing `)`
fails with the position-less `UnexpectedEof`, while a wrong token in
the `)` slot fails with `InvalidGroup` at that token's position:
`evaluate "(1"` gives UnexpectedEof, `evaluate "(1("` gives
InvalidGroup at offset 2 (the second `(`). -/
theorem C4_group_eof :
    (∀ (f : ℕ) (ts : List PToken) (n : Node) (pos : ℕ),
        parseP f Rule.expression ts = some (.ok ⟨n, []⟩) →
        parseP (f + 1) Rule.factor (⟨Token.leftParen, pos⟩ :: ts)
          = some (.err .unexpectedEof))
    ∧ evaluateP 99 "(1" = some (.err .unexpectedEof)
    ∧ evaluateP 99 "(1(" = some (.err (.invalidGroup 2)) := by
  refine ⟨?_, by decide, by decide⟩
  intro f ts n pos h
  rw [parseP_factor_def]
  have hint : integerP (⟨Token.leftParen, pos⟩ :: ts) = none := by
    simp [integerP, List.takeWhile_cons, Token.is_digit]
  rw [hint]
  simp only []
  rw [h]

/-- C4 witness: the group-at-end-of-input lemma applied to the parse
of `(1`. -/
theorem C4_group_eof_witness :
    parseP 98 Rule.expression [PToken.mk (Token.digit 1) 1] = some (.ok ⟨.int 1, []⟩)
    ∧ parseP 99 Rule.factor
        [PToken.mk Token.leftParen 0, PToken.mk (Token.digit 1) 1]
      = some (.err .unexpectedEof) :=
  ⟨by decide,
    C4_group_eof.1 98 [PToken.mk (Token.digit 1) 1] (.int 1) 0 (by decide)⟩

/-- C5 counterexample: for the parse root of `1 + 2` the iterator
yields 3 nodes (the operator and both constants), not
`1 + number_of_operators = 2`. -/
theorem C5_counterexample :
    expression (scan "1 + 2") = .ok ⟨.add (.int 1) (.int 2), []⟩
    ∧ (runIter [Node.add (.int 1) (.int 2)]).length = 3
    ∧ opCount (Node.add (.int 1) (.int 2)) = 1
    ∧ (runIter [Node.add (.int 1) (.int 2)]).length
        ≠ 1 + opCount (Node.add (.int 1) (.int 2)) := by
  refine ⟨by decide, by decide, by decide, by decide⟩

/-- C5 amended: for every parse root the iterator visits exactly
`number_of_operators + number_of_constants` nodes (equivalently
`1 + number_of_operators + number_of_binary_operators`, since a tree
has one more constant than binary operators), and the first node it
yields is the parse root. -/
theorem C5_iterator_count :
    ∀ (ts : List Token) (p : Partial), expression ts = .ok p →
      (runIter [p.node]).length = opCount p.node + constCount p.node
      ∧ constCount p.node = binOpCount p.node + 1
      ∧ (runIter [p.node]).head? = some p.node := by
  intro ts p _h
  refine ⟨?_, constCount_eq p.node, ?_⟩
  · rw [runIter_eq_preorder, preorder_length]
  · rw [runIter_eq_preorder, preorder_head]

/-- C5 witness: the count lemma at the parse of
`1 + (2 - 3) * 4 / 5 * 6` (11 visited nodes: 5 operators and 6
constants). -/
theorem C5_iterator_count_witness :
    expression (scan "1 + (2 - 3) * 4 / 5 * 6")
      = .ok ⟨.add (.int 1)
          (.multiply (.subtract (.int 2) (.int 3))
            (.divide (.int 4) (.multiply (.int 5) (.int 6)))), []⟩
    ∧ ((runIter [Node.add (.int 1)
          (.multiply (.subtract (.int 2) (.int 3))
            (.divide (.int 4) (.multiply (.int 5) (.int 6))))]).length
        = opCount (Node.add (.int 1)
            (.multiply (.subtract (.int 2) (.int 3))
              (.divide (.int 4) (.multiply (.int 5) (.int 6)))))
          + constCount (Node.add (.int 1)
              (.multiply (.subtract (.int 2) (.int 3))
                (.divide (.int 4) (.multiply (.int 5) (.int 6)))))) :=
  ⟨by decide,
    (C5_iterator_count (scan "1 + (2 - 3) * 4 / 5 * 6")
      ⟨.add (.int 1)
          (.multiply (.subtract (.int 2) (.int 3))
            (.divide (.int 4) (.multiply (.int 5) (.int 6)))), []⟩
      (by decide)).1⟩

/-- C6: `eval` succeeds exactly when the parse consumes every token: a
non-empty remainder yields `UnexpectedToken` (so `"(1 + 2) 2"` fails
that way), and an empty remainder yields Ok of the root's value. -/
theorem C6_full_consumption :
    (∀ (text : String) (p : Partial), expression (scan text) = .ok p →
      (p.tokens = [] → eval text = .ok p.node.value)
      ∧ (p.tokens ≠ [] → eval text = .err .unexpectedToken))
    ∧ eval "(1 + 2) 2" = .err .unexpectedToken := by
  refine ⟨?_, by decide⟩
  intro text p h
  constructor
  · intro hnil
    simp only [eval, h, hnil, List.length_nil]
  · intro hne
    obtain ⟨a, l, hl⟩ := List.exists_cons_of_ne_nil hne
    simp only [eval, h, hl, List.length_cons]

/-- C6 witness: the consumption lemma at `(1 + 2) 2` (one token left)
and at `1 + 2` (nothing left). -/
theorem C6_full_consumption_witness :
    expression (scan "(1 + 2) 2") = .ok ⟨.add (.int 1) (.int 2), [Token.digit 2]⟩
    ∧ eval "(1 + 2) 2" = .err .unexpectedToken
    ∧ expression (scan "1 + 2") = .ok ⟨.add (.int 1) (.int 2), []⟩
    ∧ eval "1 + 2" = .ok (Node.value (.add (.int 1) (.int 2))) :=
  ⟨by decide,
    (C6_full_consumption.1 "(1 + 2) 2" ⟨.add (.int 1) (.int 2), [Token.digit 2]⟩
      (by decide)).2 (by decide),
    by decide,
    (C6_full_consumption.1 "1 + 2" ⟨.add (.int 1) (.int 2), []⟩ (by decide)).1 rfl⟩

/-- C7 counterexample: on the tree from the repository's own graph
test (`+` over constants `1` and `2`, ids 0, 1, 2), the exporter's
edge line has two leading spaces, so the output differs from the
claimed format, whose edge line has a single leading space. -/
theorem C7_counterexample :
    Graph.dot (NodeG.binary 0 .add (.constant 1 1) (.constant 2 2))
      ≠ dotClaim (NodeG.binary 0 .add (.constant 1 1) (.constant 2 2))
    ∧ Graph.dot (NodeG.binary 0 .add (.constant 1 1) (.constant 2 2))
      = "strict graph \x7b\n  0 [ label = \"+\" ]\n  0 -- \x7b 1 2 \x7d\n  1 [ label = \"1\" ]\n  2 [ label = \"2\" ]\n\x7d" := by
  refine ⟨by decide, by decide⟩

/-- C7 amended: the export is exactly the claimed fixed format with
the edge line carrying two leading spaces like the node line: header
`strict graph \x7b` + newline, then for each node in pre-order its node
line and, when it has children, one edge line naming all its immediate
children in a single statement, all joined by newlines, then a newline
and `\x7d`. -/
theorem C7_dot_format : ∀ t : NodeG, Graph.dot t = dotAmended t :=
  dot_eq_amended

/-- C8: scanning is total and never fails; each character is
classified independently (digits give individual `Digit` tokens, the
six operator characters their tokens, exactly space/newline/tab give
nothing, anything else `Unrecognized`), and each token's position is
its character's index in the original text, whitespace included in the
count. -/
theorem C8_scanner :
    (∀ text : String,
      scanP text = text.data.enum.filterMap
        (fun p => (scanChar p.2).map fun k => PToken.mk k p.1))
    ∧ (∀ ch : Char, ('0' ≤ ch ∧ ch ≤ '9') →
        scanChar ch = some (.digit (ch.toNat - 48)))
    ∧ scanChar '+' = some .plus
    ∧ scanChar '-' = some .minus
    ∧ scanChar '*' = some .star
    ∧ scanChar '/' = some .solidus
    ∧ scanChar '(' = some .leftParen
    ∧ scanChar ')' = some .rightParen
    ∧ (∀ ch : Char, scanChar ch = none ↔ (ch = ' ' ∨ ch = '\n' ∨ ch = '\t'))
    ∧ (∀ ch : Char, ¬('0' ≤ ch ∧ ch ≤ '9') →
        ch ≠ '+' → ch ≠ '-' → ch ≠ '*' → ch ≠ '/' → ch ≠ '(' → ch ≠ ')' →
        ¬(ch = ' ' ∨ ch = '\n' ∨ ch = '\t') →
        scanChar ch = some (.unrecognized ch)) := by
  refine ⟨scanP_eq, fun ch h => scanChar_digit ch h.1 h.2,
    by decide, by decide, by decide, by decide, by decide, by decide,
    scanChar_none_iff, ?_⟩
  intro ch h1 h2 h3 h4 h5 h6 h7 h8
  simp only [scanChar]
  rw [if_neg h1, if_neg h2, if_neg h3, if_neg h4, if_neg h5, if_neg h6, if_neg h7,
    if_neg h8]

/-- C8 witness: the scanner description applied to `1 a 2` (tokens at
offsets 0, 2 and 4), the digit rule at `7`, and the Unrecognized rule
at `a`. -/
theorem C8_scanner_witness :
    scanP "1 a 2" = [PToken.mk (Token.digit 1) 0,
      PToken.mk (Token.unrecognized 'a') 2, PToken.mk (Token.digit 2) 4]
    ∧ ('0' ≤ '7' ∧ '7' ≤ '9')
    ∧ scanChar '7' = some (.digit ('7'.toNat - 48))
    ∧ ¬('0' ≤ 'a' ∧ 'a' ≤ '9')
    ∧ scanChar 'a' = some (.unrecognized 'a') := by
  refine ⟨?_, by decide, C8_scanner.2.1 '7' (by decide), by decide,
    C8_scanner.2.2.2.2.2.2.2.2.2 'a' (by decide) (by decide) (by decide) (by decide)
      (by decide) (by decide) (by decide) (by decide)⟩
  rw [C8_scanner.1 "1 a 2"]
  decide

/-- One-step unfolding of the `term` branch of `parseP`. -/
theorem parseP_term_def (f : ℕ) (ts : List PToken) :
    parseP (f + 1) Rule.term ts =
      match parseP f Rule.factor ts with
      | none => none
      | some (.err e) => some (.err e)
      | some (.ok fc) =>
        match fc.tokens with
        | [] => some (.ok fc)
        | tok :: rest =>
          match tok.kind with
          | .star =>
            match parseP f Rule.term rest with
            | none => none
            | some (.err e) => some (.err e)
            | some (.ok tm) => some (.ok ⟨.multiply fc.node tm.node, tm.tokens⟩)
          | .solidus =>
            match parseP f Rule.term rest with
            | none => none
            | some (.err e) => some (.err e)
            | some (.ok tm) => some (.ok ⟨.divide fc.node tm.node, tm.tokens⟩)
          | .unrecognized _ => some (.err (.invalidToken tok.position))
          | _ => some (.ok fc) := rfl

/-- C9: an `Unrecognized` token where an operator or terminator was
expected yields the unrecognized-token error carrying that token's
position (the check fires in `term`, right after a complete factor,
and `expression` propagates it); `evaluate "1 a 2"` fails with
position 2 (the offset of `a`), and the un-positioned parser of
`src/lib.rs` fails with its `InvalidToken` kind on the same input. -/
theorem C9_invalid_token :
    (∀ (f : ℕ) (ts rest : List PToken) (fc : PartialP) (c : Char) (pos : ℕ),
        parseP f Rule.factor ts = some (.ok fc) →
        fc.tokens = ⟨Token.unrecognized c, pos⟩ :: rest →
        parseP (f + 1) Rule.term ts = some (.err (.invalidToken pos)))
    ∧ (∀ (f : ℕ) (ts : List PToken) (e : ParseErrorP),
        parseP f Rule.term ts = some (.err e) →
        parseP (f + 1) Rule.expression ts = some (.err e))
    ∧ evaluateP 99 "1 a 2" = some (.err (.invalidToken 2))
    ∧ eval "1 a 2" = .err .invalidToken := by
  refine ⟨?_, ?_, by decide, by decide⟩
  · intro f ts rest fc c pos h1 h2
    rw [parseP_term_def, h1]
    simp only []
    rw [h2]
  · intro f ts e h
    rw [parseP_expression_def, h]

/-- C9 witness: the invalid-token lemma applied to the parse of
`1 a 2` (the `a` sits at offset 2), then propagated to the expression
level. -/
theorem C9_invalid_token_witness :
    parseP 97 Rule.factor (scanP "1 a 2")
      = some (.ok ⟨.int 1, [PToken.mk (Token.unrecognized 'a') 2,
          PToken.mk (Token.digit 2) 4]⟩)
    ∧ parseP 98 Rule.term (scanP "1 a 2") = some (.err (.invalidToken 2))
    ∧ parseP 99 Rule.expression (scanP "1 a 2")
      = some (.err (.invalidToken 2)) := by
  have h1 : parseP 97 Rule.factor (scanP "1 a 2")
      = some (.ok ⟨.int 1, [PToken.mk (Token.unrecognized 'a') 2,
          PToken.mk (Token.digit 2) 4]⟩) := by decide
  have h2 := C9_invalid_token.1 97 (scanP "1 a 2") [PToken.mk (Token.digit 2) 4]
    ⟨.int 1, [PToken.mk (Token.unrecognized 'a') 2, PToken.mk (Token.digit 2) 4]⟩
    'a' 2 h1 (by decide)
  exact ⟨h1, h2, C9_invalid_token.2.1 98 (scanP "1 a 2") (.invalidToken 2) h2⟩

/-- C10: parsing is total — on every finite token list each production
returns either a complete parse or an error, and any returned
remainder is a suffix of the input slice. -/
theorem C10_termination :
    (∀ ts : List Token,
      (∃ p : Partial, expression ts = .ok p ∧ List.IsSuffix p.tokens ts)
      ∨ (∃ e : ParseError, expression ts = .err e))
    ∧ (∀ ts : List Token,
      (∃ p : Partial, term ts = .ok p ∧ List.IsSuffix p.tokens ts)
      ∨ (∃ e : ParseError, term ts = .err e))
    ∧ (∀ ts : List Token,
      (∃ p : Partial, factor ts = .ok p ∧ List.IsSuffix p.tokens ts)
      ∨ (∃ e : ParseError, factor ts = .err e)) := by
  refine ⟨?_, ?_, ?_⟩
  · intro ts
    cases h : expression ts with
    | ok p => exact Or.inl ⟨p, rfl, expression_suffix ts p h⟩
    | err e => exact Or.inr ⟨e, rfl⟩
  · intro ts
    cases h : term ts with
    | ok p => exact Or.inl ⟨p, rfl, term_suffix ts p h⟩
    | err e => exact Or.inr ⟨e, rfl⟩
  · intro ts
    cases h : factor ts with
    | ok p => exact Or.inl ⟨p, rfl, factor_suffix ts p h⟩
    | err e => exact Or.inr ⟨e, rfl⟩
